import Mathlib

/-!
Verification of the mpreal support module
(src/Source/Common_Eigen/Include/mprealsupport.h).

The file shallowly embeds the two components of the module:

* the NumTraits adapter for `mpfr2::mpreal` (highest/lowest, dummy_precision,
  narrowing casts), over an abstract interface `Mpfr2` standing for the
  collaborator library mpreal.h (which is not part of this repository); and
* the specialized GEBP micro-kernel
  `gebp_kernel<mpfr2::mpreal,mpfr2::mpreal,...>::operator()`, whose arithmetic
  (`mpfr_mul`/`mpfr_add` at the current default rounding mode) is modelled by an
  abstract structure `MpfrArith` of binary operations, the packed panels and
  the result block by functions `ℤ → α` indexed by element offsets, and the
  loops by folds over `List.range`.

Machine integers (`Index`, `long`, `unsigned int`, `int`) are modelled by
`ℕ`/`ℤ`, with an explicit `% 2 ^ 32` where a C conversion truncates to a
32-bit type.
-/

/-- Abstract model of the mpfr scalar arithmetic used by the kernel:
`mpfr_mul` and `mpfr_add` taken at the library's current default rounding
mode (`mpreal::get_default_rnd()`), plus the zero literal assigned to the
accumulators (`acc1 = 0; acc2 = 0;`). -/
structure MpfrArith (α : Type) where
  zero : α
  mpfr_mul : α → α → α
  mpfr_add : α → α → α

/-- Abstract interface of the mpreal collaborator library (mpreal.h, outside
this repository): the current default precision, `maxval`, unary negation,
`machine_epsilon` and `toLong`, over an abstract value carrier `V`. -/
structure Mpfr2 (V : Type) where
  get_default_prec : ℕ
  maxval : ℕ → V
  neg : V → V
  machine_epsilon : ℕ → V
  toLong : V → ℤ

/-- NumTraits highest (mprealsupport.h line 76): `mpfr2::maxval(Precision)`. -/
def highest {V : Type} (lib : Mpfr2 V) (Precision : ℕ) : V :=
  lib.maxval Precision

/-- NumTraits lowest (line 77): `-mpfr2::maxval(Precision)`. -/
def lowest {V : Type} (lib : Mpfr2 V) (Precision : ℕ) : V :=
  lib.neg (lib.maxval Precision)

/-- The `weak_prec` computed by dummy_precision (line 90):
`((get_default_prec()-1) * 90) / 100`, stored into an `unsigned int`
(32-bit), hence the reduction modulo `2 ^ 32`. -/
def weak_prec (P : ℕ) : ℕ :=
  ((P - 1) * 90 / 100) % 2 ^ 32

/-- NumTraits dummy_precision (lines 88-92):
`machine_epsilon` at the weakened precision. -/
def dummy_precision {V : Type} (lib : Mpfr2 V) : V :=
  lib.machine_epsilon (weak_prec lib.get_default_prec)

/-- internal cast to long (lines 128-129): `x.toLong()`. -/
def cast_long {V : Type} (lib : Mpfr2 V) (x : V) : ℤ :=
  lib.toLong x

/-- The native `int(long)` narrowing conversion: two's-complement reduction
of a 64-bit long to a 32-bit int (balanced residue in `[-2^31, 2^31)`). -/
def int_of_long (n : ℤ) : ℤ :=
  Int.bmod n (2 ^ 32)

/-- internal cast to int (lines 131-132): `int(x.toLong())`. -/
def cast_int {V : Type} (lib : Mpfr2 V) (x : V) : ℤ :=
  int_of_long (lib.toLong x)

/-- gebp_traits register-blocking width (line 142): `nr = 2`. -/
def nr : ℕ := 2

/-- Width of the column group starting at column `j` (line 166):
`actual_nr = min(nr, cols-j)`. -/
def actual_nr (cols j : ℕ) : ℕ :=
  min nr (cols - j)

/-- Stride defaulting (lines 161-162): `if(stride==-1) stride = depth;`. -/
def strideOr (s : ℤ) (depth : ℕ) : ℤ :=
  if s = -1 then (depth : ℤ) else s

/-- Starts of the column groups visited by the outer loop (line 164):
`for(Index j=0; j<cols; j+=nr)`. -/
def groupStarts (cols : ℕ) : List ℕ :=
  (List.range ((cols + 1) / 2)).map (fun g => nr * g)

/-- Address of result entry `C[i]` of output column `j`
(lines 167-168: column `j` starts at `res + j*resStride`). -/
def writeIdx (rs : ℤ) (i j : ℕ) : ℤ :=
  (j : ℤ) * rs + (i : ℤ)

/-- One iteration of the reduction loop (lines 175-186) acting on the pair
`(acc1, acc2)`: `tmp = A[k]*B[0]; acc1 += tmp;` and, when `actual_nr == 2`,
`tmp = A[k]*B[1]; acc2 += tmp;` with the B cursor at `bOff + k*actual_nr`. -/
def kStep {α : Type} (R : MpfrArith α) (A B : ℤ → α) (aOff bOff : ℤ)
    (w : ℕ) (acc : α × α) (k : ℕ) : α × α :=
  let acc1 := R.mpfr_add acc.1 (R.mpfr_mul (A (aOff + (k : ℤ))) (B (bOff + (k : ℤ) * (w : ℤ))))
  let acc2 :=
    if w = 2 then
      R.mpfr_add acc.2 (R.mpfr_mul (A (aOff + (k : ℤ))) (B (bOff + (k : ℤ) * (w : ℤ) + 1)))
    else acc.2
  (acc1, acc2)

/-- The accumulators after the full reduction loop for one (row, group) pair,
starting from `acc1 = 0; acc2 = 0;` (lines 173-186). -/
def accs {α : Type} (R : MpfrArith α) (A B : ℤ → α) (aOff bOff : ℤ)
    (w depth : ℕ) : α × α :=
  (List.range depth).foldl (kStep R A B aOff bOff w) (R.zero, R.zero)

/-- Body of the row loop for row `i` of the group starting at column `j`
(lines 169-195): run the reduction with `A` at `i*strideA + offsetA` and `B`
at `j*strideB + offsetB*actual_nr`, then `acc *= alpha` and `C[i] += acc` for
the first column, and likewise for the second column when `actual_nr == 2`. -/
def rowStep {α : Type} (R : MpfrArith α) (rs : ℤ) (A B : ℤ → α) (alpha : α)
    (sA sB oA oB : ℤ) (depth j w : ℕ) (res : ℤ → α) (i : ℕ) : ℤ → α :=
  let aOff := (i : ℤ) * sA + oA
  let bOff := (j : ℤ) * sB + oB * (w : ℤ)
  let a := accs R A B aOff bOff w depth
  let res1 := Function.update res (writeIdx rs i j)
    (R.mpfr_add (res (writeIdx rs i j)) (R.mpfr_mul a.1 alpha))
  if w = 2 then
    Function.update res1 (writeIdx rs i (j + 1))
      (R.mpfr_add (res1 (writeIdx rs i (j + 1))) (R.mpfr_mul a.2 alpha))
  else res1

/-- The row loop `for(Index i=0; i<rows; i++)` (line 169) for one group. -/
def rowLoop {α : Type} (R : MpfrArith α) (rs : ℤ) (A B : ℤ → α) (alpha : α)
    (sA sB oA oB : ℤ) (depth j w rows : ℕ) (res : ℤ → α) : ℤ → α :=
  (List.range rows).foldl (rowStep R rs A B alpha sA sB oA oB depth j w) res

/-- The column-group loop (line 164) over the first `n` groups. -/
def groupsFold {α : Type} (R : MpfrArith α) (rs : ℤ) (A B : ℤ → α) (alpha : α)
    (sA sB oA oB : ℤ) (depth cols rows n : ℕ) (res : ℤ → α) : ℤ → α :=
  (List.range n).foldl
    (fun r g => rowLoop R rs A B alpha sA sB oA oB depth (nr * g) (actual_nr cols (nr * g)) rows r)
    res

/-- Result block produced by one call of the gebp kernel
`operator()(res, resStride, blockA, blockB, rows, depth, cols, alpha,
strideA, strideB, offsetA, offsetB)` (lines 155-197). -/
def gebp_res {α : Type} (R : MpfrArith α) (res : ℤ → α) (rs : ℤ)
    (blockA blockB : ℤ → α) (rows depth cols : ℕ) (alpha : α)
    (sA sB oA oB : ℤ) : ℤ → α :=
  groupsFold R rs blockA blockB alpha (strideOr sA depth) (strideOr sB depth)
    oA oB depth cols rows ((cols + 1) / 2) res

/-- Offsets of the A-panel elements dereferenced by the kernel (line 172 and
line 177/181): `blockA[i*strideA + offsetA + k]`, read twice per reduction
step when the group is two columns wide. -/
def gebp_readsA (rows depth cols : ℕ) (sA oA : ℤ) : List ℤ :=
  (groupStarts cols).flatMap (fun j =>
    (List.range rows).flatMap (fun i =>
      (List.range depth).flatMap (fun k =>
        let x := (i : ℤ) * strideOr sA depth + oA + (k : ℤ)
        if actual_nr cols j = 2 then [x, x] else [x])))

/-- Offsets of the B-panel elements dereferenced by the kernel (lines
171, 177, 181, 185): the cursor starts at `j*strideB + offsetB*actual_nr`,
advances by `actual_nr` per reduction step, and `B[0]` (and `B[1]` when the
group is two columns wide) are read; the whole pattern repeats per row. -/
def gebp_readsB (rows depth cols : ℕ) (sB oB : ℤ) : List ℤ :=
  (groupStarts cols).flatMap (fun j =>
    (List.range rows).flatMap (fun _i =>
      (List.range depth).flatMap (fun k =>
        let w := actual_nr cols j
        let bOff := (j : ℤ) * strideOr sB depth + oB * (w : ℤ)
        if w = 2 then [bOff + (k : ℤ) * (w : ℤ), bOff + (k : ℤ) * (w : ℤ) + 1]
        else [bOff + (k : ℤ) * (w : ℤ)])))

/-- Offsets of the result entries the kernel writes (lines 189 and 193):
`C1[i]`, and `C2[i]` when the group is two columns wide; these entries are
also read, since the update is `C[i] += acc`. -/
def gebp_writesC (rows cols : ℕ) (rs : ℤ) : List ℤ :=
  (groupStarts cols).flatMap (fun j =>
    (List.range rows).flatMap (fun i =>
      if actual_nr cols j = 2 then [writeIdx rs i j, writeIdx rs i (j + 1)]
      else [writeIdx rs i j]))

/-- Reference multiply-accumulate: a single running sum over `k` in strictly
increasing order, each product and each addition taken with the same
arithmetic operations as the kernel. -/
def macc {α : Type} (R : MpfrArith α) (a b : ℕ → α) (depth : ℕ) : α :=
  (List.range depth).foldl (fun s k => R.mpfr_add s (R.mpfr_mul (a k) (b k))) R.zero

/-- Entry `(i, k)` of the A operand as laid out in the packed A panel. -/
def packedA {α : Type} (blockA : ℤ → α) (sA oA : ℤ) (i k : ℕ) : α :=
  blockA ((i : ℤ) * sA + oA + (k : ℤ))

/-- Entry `(k, j)` of the B operand as laid out in the packed B panel: the
group holding column `j` starts at column `nr*(j/2)`, its elements are
interleaved with period `actual_nr`, and `j % 2` selects the column inside
the group. -/
def packedB {α : Type} (blockB : ℤ → α) (sB oB : ℤ) (cols k j : ℕ) : α :=
  let w := actual_nr cols (nr * (j / 2))
  blockB (((nr * (j / 2) : ℕ) : ℤ) * sB + oB * (w : ℤ) + (k : ℤ) * (w : ℤ) + ((j % 2 : ℕ) : ℤ))

/-- Exact arithmetic of a commutative ring, as the model of mpfr arithmetic
on values for which every intermediate result is exactly representable. -/
def ringArith (α : Type) [CommRing α] : MpfrArith α :=
  ⟨0, fun a b => a * b, fun a b => a + b⟩

/-- Exact integer arithmetic: the special case used for concrete scenarios
whose values are small integers. -/
def intArith : MpfrArith ℤ :=
  ⟨0, fun a b => a * b, fun a b => a + b⟩

/-- Packed A panel of the concrete scenario `A = [[2,0],[0,3]]`. -/
def scenarioA : ℤ → ℤ :=
  fun x => if x = 0 then 2 else if x = 3 then 3 else 0

/-- Packed B panel of the concrete scenario `B = [[1,1],[1,1]]`. -/
def scenarioB : ℤ → ℤ :=
  fun x => if 0 ≤ x ∧ x < 4 then 1 else 0

lemma macc_succ {α : Type} (R : MpfrArith α) (a b : ℕ → α) (d : ℕ) :
    macc R a b (d + 1) = R.mpfr_add (macc R a b d) (R.mpfr_mul (a d) (b d)) := by
  simp [macc, List.range_succ]

lemma accs_succ {α : Type} (R : MpfrArith α) (A B : ℤ → α) (aOff bOff : ℤ) (w d : ℕ) :
    accs R A B aOff bOff w (d + 1)
      = kStep R A B aOff bOff w (accs R A B aOff bOff w d) d := by
  simp [accs, List.range_succ]

lemma accs_fst {α : Type} (R : MpfrArith α) (A B : ℤ → α) (aOff bOff : ℤ) (w d : ℕ) :
    (accs R A B aOff bOff w d).1
      = macc R (fun k => A (aOff + (k : ℤ)))
          (fun k => B (bOff + (k : ℤ) * (w : ℤ))) d := by
  induction d with
  | zero => rfl
  | succ d ih => rw [accs_succ, macc_succ, ← ih]; rfl

lemma accs_snd {α : Type} (R : MpfrArith α) (A B : ℤ → α) (aOff bOff : ℤ) (d : ℕ) :
    (accs R A B aOff bOff 2 d).2
      = macc R (fun k => A (aOff + (k : ℤ)))
          (fun k => B (bOff + (k : ℤ) * ((2 : ℕ) : ℤ) + 1)) d := by
  induction d with
  | zero => rfl
  | succ d ih => rw [accs_succ, macc_succ, ← ih]; simp [kStep]

lemma writeIdx_ne_of_col_lt (rs : ℤ) (i i' j j' : ℕ) (hi : (i : ℤ) < rs) (hj : j < j') :
    writeIdx rs i j ≠ writeIdx rs i' j' := by
  unfold writeIdx
  intro h
  have h0 : (0 : ℤ) ≤ rs := le_trans (Int.natCast_nonneg i) (le_of_lt hi)
  have h1 : ((j : ℤ) + 1) * rs ≤ (j' : ℤ) * rs := by
    have hjj : ((j : ℤ) + 1) ≤ (j' : ℤ) := by exact_mod_cast hj
    exact mul_le_mul_of_nonneg_right hjj h0
  rw [add_mul, one_mul] at h1
  have h2 : (0 : ℤ) ≤ (i' : ℤ) := Int.natCast_nonneg i'
  linarith

lemma writeIdx_inj (rs : ℤ) (i i' j : ℕ) (h : i ≠ i') :
    writeIdx rs i j ≠ writeIdx rs i' j := by
  unfold writeIdx
  intro H
  apply h
  have : (i : ℤ) = (i' : ℤ) := by linarith
  exact_mod_cast this

lemma rowStep_apply_of_ne {α : Type} (R : MpfrArith α) (rs : ℤ) (A B : ℤ → α) (alpha : α)
    (sA sB oA oB : ℤ) (depth j w : ℕ) (res : ℤ → α) (i : ℕ) (x : ℤ)
    (h1 : x ≠ writeIdx rs i j) (h2 : w = 2 → x ≠ writeIdx rs i (j + 1)) :
    rowStep R rs A B alpha sA sB oA oB depth j w res i x = res x := by
  simp only [rowStep]
  by_cases hw : w = 2
  · rw [if_pos hw, Function.update_noteq (h2 hw), Function.update_noteq h1]
  · rw [if_neg hw, Function.update_noteq h1]

lemma rowStep_apply_fst {α : Type} (R : MpfrArith α) (rs : ℤ) (A B : ℤ → α) (alpha : α)
    (sA sB oA oB : ℤ) (depth j w : ℕ) (res : ℤ → α) (i : ℕ)
    (hne : w = 2 → writeIdx rs i (j + 1) ≠ writeIdx rs i j) :
    rowStep R rs A B alpha sA sB oA oB depth j w res i (writeIdx rs i j)
      = R.mpfr_add (res (writeIdx rs i j))
          (R.mpfr_mul
            (accs R A B ((i : ℤ) * sA + oA) ((j : ℤ) * sB + oB * (w : ℤ)) w depth).1
            alpha) := by
  simp only [rowStep]
  by_cases hw : w = 2
  · rw [if_pos hw, Function.update_noteq (Ne.symm (hne hw)), Function.update_same]
  · rw [if_neg hw, Function.update_same]

lemma rowStep_apply_snd {α : Type} (R : MpfrArith α) (rs : ℤ) (A B : ℤ → α) (alpha : α)
    (sA sB oA oB : ℤ) (depth j w : ℕ) (res : ℤ → α) (i : ℕ)
    (hw : w = 2) (hne : writeIdx rs i (j + 1) ≠ writeIdx rs i j) :
    rowStep R rs A B alpha sA sB oA oB depth j w res i (writeIdx rs i (j + 1))
      = R.mpfr_add (res (writeIdx rs i (j + 1)))
          (R.mpfr_mul
            (accs R A B ((i : ℤ) * sA + oA) ((j : ℤ) * sB + oB * (w : ℤ)) w depth).2
            alpha) := by
  simp only [rowStep]
  rw [if_pos hw, Function.update_same, Function.update_noteq hne]

lemma rowLoop_succ {α : Type} (R : MpfrArith α) (rs : ℤ) (A B : ℤ → α) (alpha : α)
    (sA sB oA oB : ℤ) (depth j w rows : ℕ) (res : ℤ → α) :
    rowLoop R rs A B alpha sA sB oA oB depth j w (rows + 1) res
      = rowStep R rs A B alpha sA sB oA oB depth j w
          (rowLoop R rs A B alpha sA sB oA oB depth j w rows res) rows := by
  simp [rowLoop, List.range_succ]

lemma groupsFold_succ {α : Type} (R : MpfrArith α) (rs : ℤ) (A B : ℤ → α) (alpha : α)
    (sA sB oA oB : ℤ) (depth cols rows n : ℕ) (res : ℤ → α) :
    groupsFold R rs A B alpha sA sB oA oB depth cols rows (n + 1) res
      = rowLoop R rs A B alpha sA sB oA oB depth (nr * n) (actual_nr cols (nr * n)) rows
          (groupsFold R rs A B alpha sA sB oA oB depth cols rows n res) := by
  simp [groupsFold, List.range_succ]

lemma rowLoop_apply_of_ne {α : Type} (R : MpfrArith α) (rs : ℤ) (A B : ℤ → α) (alpha : α)
    (sA sB oA oB : ℤ) (depth j w rows : ℕ) (res : ℤ → α) (x : ℤ)
    (h : ∀ i < rows, x ≠ writeIdx rs i j ∧ (w = 2 → x ≠ writeIdx rs i (j + 1))) :
    rowLoop R rs A B alpha sA sB oA oB depth j w rows res x = res x := by
  induction rows with
  | zero => rfl
  | succ rows ih =>
    rw [rowLoop_succ,
      rowStep_apply_of_ne R rs A B alpha sA sB oA oB depth j w _ rows x
        (h rows (Nat.lt_succ_self rows)).1 (h rows (Nat.lt_succ_self rows)).2]
    exact ih (fun i hi => h i (Nat.lt_succ_of_lt hi))

lemma rowLoop_apply_fst {α : Type} (R : MpfrArith α) (rs : ℤ) (A B : ℤ → α) (alpha : α)
    (sA sB oA oB : ℤ) (depth j w rows : ℕ) (res : ℤ → α) (i0 : ℕ)
    (hrs : (rows : ℤ) ≤ rs) (hi0 : i0 < rows) :
    rowLoop R rs A B alpha sA sB oA oB depth j w rows res (writeIdx rs i0 j)
      = R.mpfr_add (res (writeIdx rs i0 j))
          (R.mpfr_mul
            (accs R A B ((i0 : ℤ) * sA + oA) ((j : ℤ) * sB + oB * (w : ℤ)) w depth).1
            alpha) := by
  induction rows with
  | zero => omega
  | succ rows ih =>
    have hrs2 : (rows : ℤ) + 1 ≤ rs := by exact_mod_cast hrs
    have hlt : ∀ i : ℕ, i < rows + 1 → (i : ℤ) < rs := by
      intro i hi
      have hic : (i : ℤ) < ((rows : ℤ) + 1) := by exact_mod_cast hi
      linarith
    rw [rowLoop_succ]
    rcases Nat.lt_succ_iff_lt_or_eq.mp hi0 with h | h
    · rw [rowStep_apply_of_ne R rs A B alpha sA sB oA oB depth j w _ rows _
        (writeIdx_inj rs i0 rows j (Nat.ne_of_lt h))
        (fun _ => writeIdx_ne_of_col_lt rs i0 rows j (j + 1)
          (hlt i0 hi0) (Nat.lt_succ_self j))]
      exact ih (by linarith) h
    · subst h
      rw [rowStep_apply_fst R rs A B alpha sA sB oA oB depth j w _ i0
        (fun _ => Ne.symm (writeIdx_ne_of_col_lt rs i0 i0 j (j + 1)
          (hlt i0 hi0) (Nat.lt_succ_self j)))]
      rw [rowLoop_apply_of_ne R rs A B alpha sA sB oA oB depth j w i0 res _
        (fun i hi => ⟨writeIdx_inj rs i0 i j (by omega),
          fun _ => writeIdx_ne_of_col_lt rs i0 i j (j + 1) (hlt i0 hi0)
            (Nat.lt_succ_self j)⟩)]

lemma rowLoop_apply_snd {α : Type} (R : MpfrArith α) (rs : ℤ) (A B : ℤ → α) (alpha : α)
    (sA sB oA oB : ℤ) (depth j w rows : ℕ) (res : ℤ → α) (i0 : ℕ)
    (hw : w = 2) (hrs : (rows : ℤ) ≤ rs) (hi0 : i0 < rows) :
    rowLoop R rs A B alpha sA sB oA oB depth j w rows res (writeIdx rs i0 (j + 1))
      = R.mpfr_add (res (writeIdx rs i0 (j + 1)))
          (R.mpfr_mul
            (accs R A B ((i0 : ℤ) * sA + oA) ((j : ℤ) * sB + oB * (w : ℤ)) w depth).2
            alpha) := by
  induction rows with
  | zero => omega
  | succ rows ih =>
    have hrs2 : (rows : ℤ) + 1 ≤ rs := by exact_mod_cast hrs
    have hlt : ∀ i : ℕ, i < rows + 1 → (i : ℤ) < rs := by
      intro i hi
      have hic : (i : ℤ) < ((rows : ℤ) + 1) := by exact_mod_cast hi
      linarith
    rw [rowLoop_succ]
    rcases Nat.lt_succ_iff_lt_or_eq.mp hi0 with h | h
    · rw [rowStep_apply_of_ne R rs A B alpha sA sB oA oB depth j w _ rows _
        (Ne.symm (writeIdx_ne_of_col_lt rs rows i0 j (j + 1)
          (hlt rows (Nat.lt_succ_self rows)) (Nat.lt_succ_self j)))
        (fun _ => writeIdx_inj rs i0 rows (j + 1) (Nat.ne_of_lt h))]
      exact ih (by linarith) h
    · subst h
      rw [rowStep_apply_snd R rs A B alpha sA sB oA oB depth j w _ i0 hw
        (Ne.symm (writeIdx_ne_of_col_lt rs i0 i0 j (j + 1) (hlt i0 hi0)
          (Nat.lt_succ_self j)))]
      rw [rowLoop_apply_of_ne R rs A B alpha sA sB oA oB depth j w i0 res _
        (fun i hi => ⟨Ne.symm (writeIdx_ne_of_col_lt rs i i0 j (j + 1)
            (hlt i (Nat.lt_succ_of_lt hi)) (Nat.lt_succ_self j)),
          fun _ => writeIdx_inj rs i0 i (j + 1) (by omega)⟩)]

lemma groupsFold_apply_of_ne {α : Type} (R : MpfrArith α) (rs : ℤ) (A B : ℤ → α) (alpha : α)
    (sA sB oA oB : ℤ) (depth cols rows n : ℕ) (res : ℤ → α) (x : ℤ)
    (h : ∀ g < n, ∀ i < rows, x ≠ writeIdx rs i (nr * g) ∧
      (actual_nr cols (nr * g) = 2 → x ≠ writeIdx rs i (nr * g + 1))) :
    groupsFold R rs A B alpha sA sB oA oB depth cols rows n res x = res x := by
  induction n with
  | zero => rfl
  | succ n ih =>
    rw [groupsFold_succ,
      rowLoop_apply_of_ne R rs A B alpha sA sB oA oB depth (nr * n)
        (actual_nr cols (nr * n)) rows _ x (h n (Nat.lt_succ_self n))]
    exact ih (fun g hg => h g (Nat.lt_succ_of_lt hg))

lemma groupsFold_apply_fst {α : Type} (R : MpfrArith α) (rs : ℤ) (A B : ℤ → α) (alpha : α)
    (sA sB oA oB : ℤ) (depth cols rows n : ℕ) (res : ℤ → α) (g0 i0 : ℕ)
    (hrs : (rows : ℤ) ≤ rs) (hg : g0 < n) (hi0 : i0 < rows) :
    groupsFold R rs A B alpha sA sB oA oB depth cols rows n res (writeIdx rs i0 (nr * g0))
      = R.mpfr_add (res (writeIdx rs i0 (nr * g0)))
          (R.mpfr_mul
            (accs R A B ((i0 : ℤ) * sA + oA)
              (((nr * g0 : ℕ) : ℤ) * sB + oB * ((actual_nr cols (nr * g0) : ℕ) : ℤ))
              (actual_nr cols (nr * g0)) depth).1
            alpha) := by
  have hcast : ∀ i : ℕ, i < rows → (i : ℤ) < rs := by
    intro i hi
    have hic : (i : ℤ) < (rows : ℤ) := by exact_mod_cast hi
    linarith
  induction n with
  | zero => omega
  | succ n ih =>
    rw [groupsFold_succ]
    rcases Nat.lt_succ_iff_lt_or_eq.mp hg with h | h
    · rw [rowLoop_apply_of_ne R rs A B alpha sA sB oA oB depth (nr * n)
        (actual_nr cols (nr * n)) rows _ _
        (fun i hi => ⟨writeIdx_ne_of_col_lt rs i0 i (nr * g0) (nr * n)
            (hcast i0 hi0) (by simp [nr]; omega),
          fun _ => writeIdx_ne_of_col_lt rs i0 i (nr * g0) (nr * n + 1)
            (hcast i0 hi0) (by simp [nr]; omega)⟩)]
      exact ih h
    · subst h
      rw [rowLoop_apply_fst R rs A B alpha sA sB oA oB depth (nr * g0)
        (actual_nr cols (nr * g0)) rows _ i0 hrs hi0]
      rw [groupsFold_apply_of_ne R rs A B alpha sA sB oA oB depth cols rows g0 res _
        (fun g hgg i hi => ⟨Ne.symm (writeIdx_ne_of_col_lt rs i i0 (nr * g) (nr * g0)
            (hcast i hi) (by simp [nr]; omega)),
          fun _ => Ne.symm (writeIdx_ne_of_col_lt rs i i0 (nr * g + 1) (nr * g0)
            (hcast i hi) (by simp [nr]; omega))⟩)]

lemma groupsFold_apply_snd {α : Type} (R : MpfrArith α) (rs : ℤ) (A B : ℤ → α) (alpha : α)
    (sA sB oA oB : ℤ) (depth cols rows n : ℕ) (res : ℤ → α) (g0 i0 : ℕ)
    (hw : actual_nr cols (nr * g0) = 2)
    (hrs : (rows : ℤ) ≤ rs) (hg : g0 < n) (hi0 : i0 < rows) :
    groupsFold R rs A B alpha sA sB oA oB depth cols rows n res (writeIdx rs i0 (nr * g0 + 1))
      = R.mpfr_add (res (writeIdx rs i0 (nr * g0 + 1)))
          (R.mpfr_mul
            (accs R A B ((i0 : ℤ) * sA + oA)
              (((nr * g0 : ℕ) : ℤ) * sB + oB * ((actual_nr cols (nr * g0) : ℕ) : ℤ))
              (actual_nr cols (nr * g0)) depth).2
            alpha) := by
  have hcast : ∀ i : ℕ, i < rows → (i : ℤ) < rs := by
    intro i hi
    have hic : (i : ℤ) < (rows : ℤ) := by exact_mod_cast hi
    linarith
  induction n with
  | zero => omega
  | succ n ih =>
    rw [groupsFold_succ]
    rcases Nat.lt_succ_iff_lt_or_eq.mp hg with h | h
    · rw [rowLoop_apply_of_ne R rs A B alpha sA sB oA oB depth (nr * n)
        (actual_nr cols (nr * n)) rows _ _
        (fun i hi => ⟨writeIdx_ne_of_col_lt rs i0 i (nr * g0 + 1) (nr * n)
            (hcast i0 hi0) (by simp [nr]; omega),
          fun _ => writeIdx_ne_of_col_lt rs i0 i (nr * g0 + 1) (nr * n + 1)
            (hcast i0 hi0) (by simp [nr]; omega)⟩)]
      exact ih h
    · subst h
      rw [rowLoop_apply_snd R rs A B alpha sA sB oA oB depth (nr * g0)
        (actual_nr cols (nr * g0)) rows _ i0 hw hrs hi0]
      rw [groupsFold_apply_of_ne R rs A B alpha sA sB oA oB depth cols rows g0 res _
        (fun g hgg i hi => ⟨Ne.symm (writeIdx_ne_of_col_lt rs i i0 (nr * g) (nr * g0 + 1)
            (hcast i hi) (by simp [nr]; omega)),
          fun _ => Ne.symm (writeIdx_ne_of_col_lt rs i i0 (nr * g + 1) (nr * g0 + 1)
            (hcast i hi) (by simp [nr]; omega))⟩)]

lemma gebp_apply_entry {α : Type} (R : MpfrArith α) (res : ℤ → α) (rs : ℤ)
    (A B : ℤ → α) (rows depth cols : ℕ) (alpha : α) (sA sB oA oB : ℤ) (i j : ℕ)
    (hrs : (rows : ℤ) ≤ rs) (hi : i < rows) (hj : j < cols) :
    gebp_res R res rs A B rows depth cols alpha sA sB oA oB (writeIdx rs i j)
      = R.mpfr_add (res (writeIdx rs i j))
          (R.mpfr_mul
            (macc R (packedA A (strideOr sA depth) oA i)
              (fun k => packedB B (strideOr sB depth) oB cols k j) depth)
            alpha) := by
  rcases Nat.mod_two_eq_zero_or_one j with hc | hc
  · have hj2 : j = nr * (j / 2) := by simp only [nr]; omega
    have hg : j / 2 < (cols + 1) / 2 := by omega
    rw [show writeIdx rs i j = writeIdx rs i (nr * (j / 2)) by rw [← hj2]]
    unfold gebp_res
    rw [groupsFold_apply_fst R rs A B alpha (strideOr sA depth) (strideOr sB depth)
      oA oB depth cols rows ((cols + 1) / 2) res (j / 2) i hrs hg hi]
    rw [accs_fst]
    have hB : (fun k : ℕ => B ((((nr * (j / 2) : ℕ) : ℤ) * strideOr sB depth
          + oB * ((actual_nr cols (nr * (j / 2)) : ℕ) : ℤ)) + (k : ℤ) * ((actual_nr cols (nr * (j / 2)) : ℕ) : ℤ)))
        = fun k => packedB B (strideOr sB depth) oB cols k j := by
      funext k
      simp only [packedB]
      congr 1
      rw [hc]
      push_cast
      ring
    rw [hB]
    rfl
  · have hj2 : j = nr * (j / 2) + 1 := by simp only [nr]; omega
    have hg : j / 2 < (cols + 1) / 2 := by omega
    have hw : actual_nr cols (nr * (j / 2)) = 2 := by
      simp only [actual_nr, nr]; omega
    rw [show writeIdx rs i j = writeIdx rs i (nr * (j / 2) + 1) by rw [← hj2]]
    unfold gebp_res
    rw [groupsFold_apply_snd R rs A B alpha (strideOr sA depth) (strideOr sB depth)
      oA oB depth cols rows ((cols + 1) / 2) res (j / 2) i hw hrs hg hi]
    rw [hw, accs_snd]
    have hB : (fun k : ℕ => B ((((nr * (j / 2) : ℕ) : ℤ) * strideOr sB depth
          + oB * ((2 : ℕ) : ℤ)) + (k : ℤ) * ((2 : ℕ) : ℤ) + 1))
        = fun k => packedB B (strideOr sB depth) oB cols k j := by
      funext k
      simp only [packedB, hw]
      congr 1
      rw [hc]
      push_cast
      ring
    rw [hB]
    rfl

lemma mem_writesC_iff (rows cols : ℕ) (rs : ℤ) (x : ℤ) :
    x ∈ gebp_writesC rows cols rs ↔ ∃ i < rows, ∃ j < cols, x = writeIdx rs i j := by
  simp only [gebp_writesC, List.mem_flatMap, groupStarts, List.mem_map, List.mem_range]
  constructor
  · rintro ⟨j, ⟨g, hg, rfl⟩, i, hi, hx⟩
    by_cases hw : actual_nr cols (nr * g) = 2
    · rw [if_pos hw] at hx
      have hw2 : nr * g + 1 < cols := by
        simp only [actual_nr, nr] at hw ⊢
        omega
      simp only [List.mem_cons, List.not_mem_nil, or_false] at hx
      rcases hx with hx | hx
      · exact ⟨i, hi, nr * g, by omega, hx⟩
      · exact ⟨i, hi, nr * g + 1, hw2, hx⟩
    · rw [if_neg hw] at hx
      have hg2 : nr * g < cols := by
        simp only [nr] at hg ⊢
        omega
      simp only [List.mem_singleton] at hx
      exact ⟨i, hi, nr * g, hg2, hx⟩
  · rintro ⟨i, hi, j, hj, rfl⟩
    refine ⟨nr * (j / 2), ⟨j / 2, by omega, rfl⟩, i, hi, ?_⟩
    rcases Nat.mod_two_eq_zero_or_one j with hc | hc
    · have hj2 : nr * (j / 2) = j := by simp only [nr]; omega
      rw [hj2]
      split <;> simp
    · have hj2 : nr * (j / 2) + 1 = j := by simp only [nr]; omega
      have hw : actual_nr cols (nr * (j / 2)) = 2 := by
        simp only [actual_nr, nr]
        omega
      rw [if_pos hw, hj2]
      simp

lemma gebp_apply_not_written {α : Type} (R : MpfrArith α) (res : ℤ → α) (rs : ℤ)
    (A B : ℤ → α) (rows depth cols : ℕ) (alpha : α) (sA sB oA oB : ℤ) (x : ℤ)
    (hx : x ∉ gebp_writesC rows cols rs) :
    gebp_res R res rs A B rows depth cols alpha sA sB oA oB x = res x := by
  unfold gebp_res
  apply groupsFold_apply_of_ne
  intro g hg i hi
  have hgc : nr * g < cols := by simp only [nr] at *; omega
  constructor
  · intro hEq
    exact hx ((mem_writesC_iff rows cols rs x).mpr ⟨i, hi, nr * g, hgc, hEq⟩)
  · intro hw hEq
    have hw2 : nr * g + 1 < cols := by
      simp only [actual_nr, nr] at hw ⊢
      omega
    exact hx ((mem_writesC_iff rows cols rs x).mpr ⟨i, hi, nr * g + 1, hw2, hEq⟩)

lemma groupsFold_rows_zero {α : Type} (R : MpfrArith α) (rs : ℤ) (A B : ℤ → α) (alpha : α)
    (sA sB oA oB : ℤ) (depth cols n : ℕ) (res : ℤ → α) :
    groupsFold R rs A B alpha sA sB oA oB depth cols 0 n res = res := by
  induction n with
  | zero => rfl
  | succ n ih => rw [groupsFold_succ]; simpa [rowLoop] using ih

lemma accs_congr {α : Type} (R : MpfrArith α) (A1 B1 A2 B2 : ℤ → α)
    (aOff1 bOff1 aOff2 bOff2 : ℤ) (w d : ℕ)
    (hA : ∀ k < d, A1 (aOff1 + (k : ℤ)) = A2 (aOff2 + (k : ℤ)))
    (hB0 : ∀ k < d, B1 (bOff1 + (k : ℤ) * (w : ℤ)) = B2 (bOff2 + (k : ℤ) * (w : ℤ)))
    (hB1 : w = 2 → ∀ k < d, B1 (bOff1 + (k : ℤ) * (w : ℤ) + 1) = B2 (bOff2 + (k : ℤ) * (w : ℤ) + 1)) :
    accs R A1 B1 aOff1 bOff1 w d = accs R A2 B2 aOff2 bOff2 w d := by
  induction d with
  | zero => rfl
  | succ d ih =>
    rw [accs_succ, accs_succ,
      ih (fun k hk => hA k (by omega)) (fun k hk => hB0 k (by omega))
        (fun hw k hk => hB1 hw k (by omega))]
    by_cases hw : w = 2
    · simp only [kStep, if_pos hw]
      rw [hA d (by omega), hB0 d (by omega), hB1 hw d (by omega)]
    · simp only [kStep, if_neg hw]
      rw [hA d (by omega), hB0 d (by omega)]

lemma rowLoop_congr {α : Type} (R : MpfrArith α) (rs : ℤ) (A1 B1 A2 B2 : ℤ → α) (alpha : α)
    (sA1 sB1 oA1 oB1 sA2 sB2 oA2 oB2 : ℤ) (depth j w rows : ℕ) (res : ℤ → α)
    (h : ∀ i < rows,
      accs R A1 B1 ((i : ℤ) * sA1 + oA1) ((j : ℤ) * sB1 + oB1 * (w : ℤ)) w depth
        = accs R A2 B2 ((i : ℤ) * sA2 + oA2) ((j : ℤ) * sB2 + oB2 * (w : ℤ)) w depth) :
    rowLoop R rs A1 B1 alpha sA1 sB1 oA1 oB1 depth j w rows res
      = rowLoop R rs A2 B2 alpha sA2 sB2 oA2 oB2 depth j w rows res := by
  induction rows with
  | zero => rfl
  | succ rows ih =>
    rw [rowLoop_succ, rowLoop_succ, ih (fun i hi => h i (by omega))]
    simp only [rowStep]
    rw [h rows (Nat.lt_succ_self rows)]

lemma groupsFold_congr {α : Type} (R : MpfrArith α) (rs : ℤ) (A1 B1 A2 B2 : ℤ → α) (alpha : α)
    (sA1 sB1 oA1 oB1 sA2 sB2 oA2 oB2 : ℤ) (depth cols rows n : ℕ) (res : ℤ → α)
    (h : ∀ g < n, ∀ i < rows,
      accs R A1 B1 ((i : ℤ) * sA1 + oA1)
          (((nr * g : ℕ) : ℤ) * sB1 + oB1 * ((actual_nr cols (nr * g) : ℕ) : ℤ))
          (actual_nr cols (nr * g)) depth
        = accs R A2 B2 ((i : ℤ) * sA2 + oA2)
            (((nr * g : ℕ) : ℤ) * sB2 + oB2 * ((actual_nr cols (nr * g) : ℕ) : ℤ))
            (actual_nr cols (nr * g)) depth) :
    groupsFold R rs A1 B1 alpha sA1 sB1 oA1 oB1 depth cols rows n res
      = groupsFold R rs A2 B2 alpha sA2 sB2 oA2 oB2 depth cols rows n res := by
  induction n with
  | zero => rfl
  | succ n ih =>
    rw [groupsFold_succ, groupsFold_succ, ih (fun g hg => h g (by omega))]
    exact rowLoop_congr R rs A1 B1 A2 B2 alpha sA1 sB1 oA1 oB1 sA2 sB2 oA2 oB2
      depth (nr * n) (actual_nr cols (nr * n)) rows _ (h n (Nat.lt_succ_self n))

lemma gebp_congr {α : Type} (R : MpfrArith α) (res : ℤ → α) (rs : ℤ)
    (A1 B1 A2 B2 : ℤ → α) (rows depth cols : ℕ) (alpha : α)
    (sA1 sB1 oA1 oB1 sA2 sB2 oA2 oB2 : ℤ)
    (hA : ∀ i < rows, ∀ k < depth,
      A1 ((i : ℤ) * strideOr sA1 depth + oA1 + (k : ℤ))
        = A2 ((i : ℤ) * strideOr sA2 depth + oA2 + (k : ℤ)))
    (hB : ∀ g : ℕ, nr * g < cols → ∀ k < depth, ∀ c < actual_nr cols (nr * g),
      B1 (((nr * g : ℕ) : ℤ) * strideOr sB1 depth + oB1 * ((actual_nr cols (nr * g) : ℕ) : ℤ)
          + (k : ℤ) * ((actual_nr cols (nr * g) : ℕ) : ℤ) + (c : ℤ))
        = B2 (((nr * g : ℕ) : ℤ) * strideOr sB2 depth + oB2 * ((actual_nr cols (nr * g) : ℕ) : ℤ)
            + (k : ℤ) * ((actual_nr cols (nr * g) : ℕ) : ℤ) + (c : ℤ))) :
    gebp_res R res rs A1 B1 rows depth cols alpha sA1 sB1 oA1 oB1
      = gebp_res R res rs A2 B2 rows depth cols alpha sA2 sB2 oA2 oB2 := by
  unfold gebp_res
  apply groupsFold_congr
  intro g hg i hi
  have hgc : nr * g < cols := by simp only [nr] at *; omega
  have hw1 : 0 < actual_nr cols (nr * g) := by
    simp only [actual_nr, nr] at *
    omega
  apply accs_congr
  · intro k hk
    exact hA i hi k hk
  · intro k hk
    have h0 := hB g hgc k hk 0 hw1
    simpa using h0
  · intro hw k hk
    have h1 := hB g hgc k hk 1 (by rw [hw]; omega)
    simpa using h1

lemma macc_ring {α : Type} [CommRing α] (a b : ℕ → α) (d : ℕ) :
    macc (ringArith α) a b d = ∑ k ∈ Finset.range d, a k * b k := by
  induction d with
  | zero => rfl
  | succ d ih => rw [macc_succ, ih, Finset.sum_range_succ]; rfl

lemma mem_dup_ite {β : Type} {P : Prop} [Decidable P] (a x : β) :
    (x ∈ if P then [a, a] else [a]) ↔ x = a := by
  by_cases h : P
  · rw [if_pos h]; simp
  · rw [if_neg h]; simp

lemma mem_pair_ite {P : Prop} [Decidable P] (p x : ℤ) :
    (x ∈ if P then [p, p + 1] else [p]) ↔ (x = p ∨ (P ∧ x = p + 1)) := by
  by_cases h : P
  · rw [if_pos h]; simp [h]
  · rw [if_neg h]; simp [h]

lemma mem_readsA_iff (rows depth cols : ℕ) (sA oA : ℤ) (x : ℤ) :
    x ∈ gebp_readsA rows depth cols sA oA ↔
      (0 < cols ∧ ∃ i < rows, ∃ k < depth,
        x = (i : ℤ) * strideOr sA depth + oA + (k : ℤ)) := by
  simp only [gebp_readsA, List.mem_flatMap, groupStarts, List.mem_map, List.mem_range]
  constructor
  · rintro ⟨j, ⟨g, hg, rfl⟩, i, hi, k, hk, hx⟩
    rw [mem_dup_ite] at hx
    exact ⟨by omega, i, hi, k, hk, hx⟩
  · rintro ⟨hc, i, hi, k, hk, rfl⟩
    exact ⟨nr * 0, ⟨0, by omega, rfl⟩, i, hi, k, hk, by rw [mem_dup_ite]⟩

lemma mem_readsB_iff (rows depth cols : ℕ) (sB oB : ℤ) (x : ℤ) :
    x ∈ gebp_readsB rows depth cols sB oB ↔
      (0 < rows ∧ ∃ g : ℕ, nr * g < cols ∧ ∃ k < depth, ∃ c < actual_nr cols (nr * g),
        x = ((nr * g : ℕ) : ℤ) * strideOr sB depth
            + oB * ((actual_nr cols (nr * g) : ℕ) : ℤ)
            + (k : ℤ) * ((actual_nr cols (nr * g) : ℕ) : ℤ) + (c : ℤ)) := by
  simp only [gebp_readsB, List.mem_flatMap, groupStarts, List.mem_map, List.mem_range]
  constructor
  · rintro ⟨j, ⟨g, hg, rfl⟩, i, hi, k, hk, hx⟩
    have hgc : nr * g < cols := by simp only [nr] at *; omega
    have hwpos : 0 < actual_nr cols (nr * g) := by
      simp only [actual_nr, nr] at *
      omega
    rw [mem_pair_ite] at hx
    refine ⟨by omega, g, hgc, k, hk, ?_⟩
    rcases hx with hx | ⟨hw, hx⟩
    · exact ⟨0, hwpos, by rw [hx]; push_cast; ring⟩
    · exact ⟨1, by rw [hw]; omega, by rw [hx]; push_cast; ring⟩
  · rintro ⟨hr, g, hgc, k, hk, c, hc, rfl⟩
    refine ⟨nr * g, ⟨g, by simp only [nr] at *; omega, rfl⟩, 0, hr, k, hk, ?_⟩
    rw [mem_pair_ite]
    by_cases hw : actual_nr cols (nr * g) = 2
    · have hc01 : c = 0 ∨ c = 1 := by rw [hw] at hc; omega
      rcases hc01 with rfl | rfl
      · left; push_cast; ring
      · right; exact ⟨hw, by push_cast; ring⟩
    · have hc0 : c = 0 := by
        simp only [actual_nr, nr] at *
        omega
      subst hc0
      left; push_cast; ring

/-- C1: one kernel call updates each result-block entry (row `i`, column `j`,
at offset `writeIdx resStride i j`) from `C` to `C + alpha·(A·B)`: the new
entry is `mpfr_add` of the old entry and `mpfr_mul` of the accumulated sum
with `alpha`, where the sum equals the reference multiply-accumulate `macc`
(a single running sum in strictly increasing `k` from `0` to `depth-1`, no
pairwise reduction) over the packed operand entries, every multiply and add
taken with the same arithmetic operations (the library's current default
rounding mode). The hypothesis `rows ≤ resStride` is the result-block
validity invariant. -/
theorem gebp_mac_correct {α : Type} (R : MpfrArith α) (res : ℤ → α) (rs : ℤ)
    (A B : ℤ → α) (rows depth cols : ℕ) (alpha : α) (sA sB oA oB : ℤ) (i j : ℕ)
    (hrs : (rows : ℤ) ≤ rs) (hi : i < rows) (hj : j < cols) :
    gebp_res R res rs A B rows depth cols alpha sA sB oA oB (writeIdx rs i j)
      = R.mpfr_add (res (writeIdx rs i j))
          (R.mpfr_mul
            (macc R (packedA A (strideOr sA depth) oA i)
              (fun k => packedB B (strideOr sB depth) oB cols k j) depth)
            alpha) :=
  gebp_apply_entry R res rs A B rows depth cols alpha sA sB oA oB i j hrs hi hj

theorem gebp_mac_correct_witness :
    gebp_res intArith (fun _ => 0) 1 (fun _ => 2) (fun _ => 3) 1 1 1 5 (-1) (-1) 0 0
      (writeIdx 1 0 0) = 30 := by
  have h := gebp_mac_correct intArith (fun _ => 0) 1 (fun _ => 2) (fun _ => 3)
    1 1 1 5 (-1) (-1) 0 0 0 0 (by decide) (by decide) (by decide)
  rw [h]
  decide

/-- C2 counterexample: with `rows = cols = 1` and `depth = 0` the kernel is
not a no-op on the result block: the write list is nonempty (the entry at
offset 0 is read and written, `C[0] += 0·alpha`), and under an arithmetic in
which `0·alpha ≠ 0` (as happens in mpfr when `alpha` is NaN) the entry's
value even changes. -/
theorem gebp_depth_zero_not_noop :
    gebp_writesC 1 1 1 ≠ []
      ∧ gebp_res (⟨0, fun a b => a * b + 1, fun a b => a + b⟩ : MpfrArith ℤ)
          (fun _ => 0) 1 (fun _ => 0) (fun _ => 0) 1 0 1 1 (-1) (-1) 0 0 0 ≠ 0 := by
  decide

/-- C2 (amended): a call with `rows = 0` or `cols = 0` is a complete no-op
(result block unchanged, no operand element read, no result entry read or
written); a call with `depth = 0` reads no operand element, but each result
entry of the block is still read and written, receiving `0·alpha`. -/
theorem gebp_zero_sizes {α : Type} (R : MpfrArith α) (res : ℤ → α) (rs : ℤ)
    (A B : ℤ → α) (rows depth cols : ℕ) (alpha : α) (sA sB oA oB : ℤ) :
    (rows = 0 ∨ cols = 0 →
      gebp_res R res rs A B rows depth cols alpha sA sB oA oB = res
        ∧ gebp_readsA rows depth cols sA oA = []
        ∧ gebp_readsB rows depth cols sB oB = []
        ∧ gebp_writesC rows cols rs = [])
    ∧ (depth = 0 →
      gebp_readsA rows depth cols sA oA = [] ∧ gebp_readsB rows depth cols sB oB = [])
    ∧ (depth = 0 → ∀ i j : ℕ, (rows : ℤ) ≤ rs → i < rows → j < cols →
      gebp_res R res rs A B rows depth cols alpha sA sB oA oB (writeIdx rs i j)
        = R.mpfr_add (res (writeIdx rs i j)) (R.mpfr_mul R.zero alpha)) := by
  refine ⟨fun h => ⟨?_, ?_, ?_, ?_⟩, fun h => ⟨?_, ?_⟩, fun h i j hrs hi hj => ?_⟩
  · rcases h with rfl | rfl
    · exact groupsFold_rows_zero R rs A B alpha (strideOr sA depth) (strideOr sB depth)
        oA oB depth cols ((cols + 1) / 2) res
    · rfl
  · refine List.eq_nil_iff_forall_not_mem.mpr (fun x hx => ?_)
    obtain ⟨hc, i, hi, -⟩ := (mem_readsA_iff rows depth cols sA oA x).mp hx
    rcases h with rfl | rfl
    · omega
    · omega
  · refine List.eq_nil_iff_forall_not_mem.mpr (fun x hx => ?_)
    obtain ⟨hr, g, hgc, -⟩ := (mem_readsB_iff rows depth cols sB oB x).mp hx
    rcases h with rfl | rfl
    · omega
    · exact absurd hgc (Nat.not_lt_zero _)
  · refine List.eq_nil_iff_forall_not_mem.mpr (fun x hx => ?_)
    obtain ⟨i, hi, j, hj, -⟩ := (mem_writesC_iff rows cols rs x).mp hx
    rcases h with rfl | rfl
    · omega
    · omega
  · refine List.eq_nil_iff_forall_not_mem.mpr (fun x hx => ?_)
    obtain ⟨-, i, hi, k, hk, -⟩ := (mem_readsA_iff rows depth cols sA oA x).mp hx
    omega
  · refine List.eq_nil_iff_forall_not_mem.mpr (fun x hx => ?_)
    obtain ⟨-, g, -, k, hk, -⟩ := (mem_readsB_iff rows depth cols sB oB x).mp hx
    omega
  · subst h
    rw [gebp_apply_entry R res rs A B rows 0 cols alpha sA sB oA oB i j hrs hi hj]
    rfl

theorem gebp_zero_sizes_witness :
    (gebp_res intArith (fun _ => (0 : ℤ)) 1 (fun _ => 0) (fun _ => 0) 0 1 1 1 (-1) (-1) 0 0
        = fun _ => (0 : ℤ))
    ∧ gebp_res intArith (fun _ => (0 : ℤ)) 1 (fun _ => 0) (fun _ => 0) 1 0 1 1 (-1) (-1) 0 0
        (writeIdx 1 0 0)
      = intArith.mpfr_add ((fun _ => (0 : ℤ)) (writeIdx 1 0 0)) (intArith.mpfr_mul intArith.zero 1) :=
  ⟨((gebp_zero_sizes intArith (fun _ => 0) 1 (fun _ => 0) (fun _ => 0) 0 1 1 1 (-1) (-1) 0 0).1
      (Or.inl rfl)).1,
   (gebp_zero_sizes intArith (fun _ => 0) 1 (fun _ => 0) (fun _ => 0) 1 0 1 1 (-1) (-1) 0 0).2.2
      rfl 0 0 (by decide) (by decide) (by decide)⟩

/-- C3 counterexample: with `cols = 2` (one full group of width
`actual_nr = 2`), `panelStrideB = 1` and `offsetB = 1`, the kernel reads
B-panel elements 2 and 3 and not the element at
`j*panelStrideB + offsetB = 1`: `offsetB` is scaled by the group width. -/
theorem gebp_offsetB_scaled :
    gebp_readsB 1 1 2 1 1 = [2, 3] ∧ (1 : ℤ) ∉ gebp_readsB 1 1 2 1 1 := by
  decide

/-- C3 (amended): the kernel's A-panel reads are exactly the plain element
offsets `i*panelStrideA + offsetA + k` (`i < rows`, `k < depth`, `offsetA`
unscaled), while its B-panel reads are exactly the offsets
`j*panelStrideB + offsetB*actual_nr + k*actual_nr + c` for the group starting
at column `j = nr·g` and column `c` inside the group: `offsetB` is scaled by
the group width `actual_nr`. -/
theorem gebp_read_offsets (rows depth cols : ℕ) (sA sB oA oB : ℤ) :
    (∀ x : ℤ, x ∈ gebp_readsA rows depth cols sA oA ↔
      (0 < cols ∧ ∃ i < rows, ∃ k < depth,
        x = (i : ℤ) * strideOr sA depth + oA + (k : ℤ)))
    ∧ (∀ x : ℤ, x ∈ gebp_readsB rows depth cols sB oB ↔
      (0 < rows ∧ ∃ g : ℕ, nr * g < cols ∧ ∃ k < depth, ∃ c < actual_nr cols (nr * g),
        x = ((nr * g : ℕ) : ℤ) * strideOr sB depth
            + oB * ((actual_nr cols (nr * g) : ℕ) : ℤ)
            + (k : ℤ) * ((actual_nr cols (nr * g) : ℕ) : ℤ) + (c : ℤ))) :=
  ⟨mem_readsA_iff rows depth cols sA oA, mem_readsB_iff rows depth cols sB oB⟩

theorem gebp_read_offsets_witness :
    (0 : ℤ) ∈ gebp_readsA 1 1 1 (-1) 0 :=
  ((gebp_read_offsets 1 1 1 (-1) (-1) 0 0).1 0).mpr (by decide)

/-- C7: with exact integer arithmetic (all values of the scenario are small
integers, exactly representable at 64-bit precision), operands
`A = [[2,0],[0,3]]` and `B = [[1,1],[1,1]]` in packed panel form, `alpha = 1`,
`C` initially zero and `resultStride = 2`, one kernel call leaves
`C = [[2,2],[3,3]]`. -/
theorem gebp_concrete_scenario :
    gebp_res intArith (fun _ => 0) 2 scenarioA scenarioB 2 2 2 1 (-1) (-1) 0 0 (writeIdx 2 0 0) = 2
    ∧ gebp_res intArith (fun _ => 0) 2 scenarioA scenarioB 2 2 2 1 (-1) (-1) 0 0 (writeIdx 2 1 0) = 3
    ∧ gebp_res intArith (fun _ => 0) 2 scenarioA scenarioB 2 2 2 1 (-1) (-1) 0 0 (writeIdx 2 0 1) = 2
    ∧ gebp_res intArith (fun _ => 0) 2 scenarioA scenarioB 2 2 2 1 (-1) (-1) 0 0 (writeIdx 2 1 1) = 3 := by
  decide

/-- C8: for every precision `P` the adapter satisfies
`lowest(P) = -highest(P)`: `highest` returns `maxval(P)` and `lowest` returns
its negation. -/
theorem traits_lowest_neg_highest :
    ∀ (V : Type) (lib : Mpfr2 V) (P : ℕ), lowest lib P = lib.neg (highest lib P) :=
  fun _ _ _ => rfl

/-- C9 counterexample: at default precision `2^33` the weak precision is
truncated by the `unsigned int` conversion: `dummy_precision` calls
`machine_epsilon` at `((2^33-1)*90/100) mod 2^32 = 3435973835` bits, not at
`(2^33-1)*90/100 = 7730941131` bits as the exact-integer-arithmetic claim
predicts. -/
theorem dummy_precision_truncates :
    dummy_precision (⟨2 ^ 33, fun _ => 0, id, id, fun _ => 0⟩ : Mpfr2 ℕ)
      ≠ (2 ^ 33 - 1) * 90 / 100 := by
  decide

/-- C9 (amended): `dummy_precision` returns `machine_epsilon` at
`((P - 1) * 90 / 100) mod 2^32` bits, where `P` is the current default
precision read at call time; the reduction modulo `2^32` comes from storing
the value in an `unsigned int`, and the bit count agrees with the exact
floor of 90% of `P - 1` whenever `P ≤ 4·10^9`. -/
theorem dummy_precision_formula :
    (∀ (V : Type) (lib : Mpfr2 V),
      dummy_precision lib
        = lib.machine_epsilon (((lib.get_default_prec - 1) * 90 / 100) % 2 ^ 32))
    ∧ (∀ (V : Type) (lib : Mpfr2 V), lib.get_default_prec ≤ 4 * 10 ^ 9 →
      dummy_precision lib = lib.machine_epsilon ((lib.get_default_prec - 1) * 90 / 100)) := by
  constructor
  · intro V lib
    rfl
  · intro V lib h
    unfold dummy_precision weak_prec
    congr 1
    apply Nat.mod_eq_of_lt
    have h32 : (2 : ℕ) ^ 32 = 4294967296 := by norm_num
    have h9 : (4 : ℕ) * 10 ^ 9 = 4000000000 := by norm_num
    rw [h32]
    rw [h9] at h
    omega

theorem dummy_precision_formula_witness :
    dummy_precision (⟨64, fun _ => 0, id, id, fun _ => 0⟩ : Mpfr2 ℕ) = 56 := by
  have h := dummy_precision_formula.2 ℕ (⟨64, fun _ => 0, id, id, fun _ => 0⟩ : Mpfr2 ℕ)
    (by norm_num)
  rw [h]
  decide

/-- C10: the narrowing cast of an arbitrary-precision value to `int` equals
the cast to `long` followed by the native long-to-int conversion:
`cast_int x = int_of_long (cast_long x)`; there is no direct conversion, the
value always goes through the `toLong` intermediate. -/
theorem cast_int_through_long :
    ∀ (V : Type) (lib : Mpfr2 V) (x : V), cast_int lib x = int_of_long (cast_long lib x) :=
  fun _ _ _ => rfl

/-- C4: for odd `cols` the final column group has width `actual_nr = 1`,
every result write lies in an existing column `j < cols`, and every B-panel
read belongs to an existing column `nr·g + c < cols`: the nonexistent second
column of the last group is neither read nor written. -/
theorem gebp_odd_cols_safe (rows depth cols : ℕ) (rs sB oB : ℤ)
    (hodd : cols % 2 = 1) :
    actual_nr cols (nr * ((cols + 1) / 2 - 1)) = 1
    ∧ (∀ x ∈ gebp_writesC rows cols rs, ∃ i < rows, ∃ j < cols, x = writeIdx rs i j)
    ∧ (∀ x ∈ gebp_readsB rows depth cols sB oB,
        ∃ g : ℕ, ∃ k < depth, ∃ c < actual_nr cols (nr * g), nr * g + c < cols ∧
          x = ((nr * g : ℕ) : ℤ) * strideOr sB depth
              + oB * ((actual_nr cols (nr * g) : ℕ) : ℤ)
              + (k : ℤ) * ((actual_nr cols (nr * g) : ℕ) : ℤ) + (c : ℤ)) := by
  refine ⟨?_, ?_, ?_⟩
  · simp only [actual_nr, nr]
    omega
  · intro x hx
    exact (mem_writesC_iff rows cols rs x).mp hx
  · intro x hx
    obtain ⟨hr, g, hgc, k, hk, c, hc, hx⟩ := (mem_readsB_iff rows depth cols sB oB x).mp hx
    refine ⟨g, k, hk, c, hc, ?_, hx⟩
    have hc2 := hc
    simp only [actual_nr, nr] at hc2 hgc ⊢
    omega

theorem gebp_odd_cols_safe_witness :
    actual_nr 3 (nr * ((3 + 1) / 2 - 1)) = 1
    ∧ ∃ i < 1, ∃ j < 3, (0 : ℤ) = writeIdx 1 i j :=
  ⟨(gebp_odd_cols_safe 1 1 3 1 1 0 rfl).1,
   (gebp_odd_cols_safe 1 1 3 1 1 0 rfl).2.1 0 (by decide)⟩

/-- C5: kernel results are independent of panel padding: passing
`strideA = strideB = -1` gives exactly the result of the call with both
strides equal to `depth`; and for any strides at least `depth`, if the padded
panels agree with the tightly packed panels on the `depth` elements the
kernel addresses in each panel row (A) and each column group (B), the result
block is identical — the kernel never dereferences past `depth` along the
reduction dimension. -/
theorem gebp_padding_independent {α : Type} :
    (∀ (R : MpfrArith α) (res : ℤ → α) (rs : ℤ) (A B : ℤ → α)
        (rows depth cols : ℕ) (alpha : α) (oA oB : ℤ),
      gebp_res R res rs A B rows depth cols alpha (-1) (-1) oA oB
        = gebp_res R res rs A B rows depth cols alpha (depth : ℤ) (depth : ℤ) oA oB)
    ∧ (∀ (R : MpfrArith α) (res : ℤ → α) (rs : ℤ) (Ap Bp At Bt : ℤ → α)
        (rows depth cols : ℕ) (alpha : α) (sA sB oA oB : ℤ),
      (depth : ℤ) ≤ sA → (depth : ℤ) ≤ sB →
      (∀ i < rows, ∀ k < depth,
        Ap ((i : ℤ) * sA + oA + (k : ℤ)) = At ((i : ℤ) * (depth : ℤ) + oA + (k : ℤ))) →
      (∀ g : ℕ, nr * g < cols → ∀ k < depth, ∀ c < actual_nr cols (nr * g),
        Bp (((nr * g : ℕ) : ℤ) * sB + oB * ((actual_nr cols (nr * g) : ℕ) : ℤ)
            + (k : ℤ) * ((actual_nr cols (nr * g) : ℕ) : ℤ) + (c : ℤ))
          = Bt (((nr * g : ℕ) : ℤ) * (depth : ℤ) + oB * ((actual_nr cols (nr * g) : ℕ) : ℤ)
              + (k : ℤ) * ((actual_nr cols (nr * g) : ℕ) : ℤ) + (c : ℤ))) →
      gebp_res R res rs Ap Bp rows depth cols alpha sA sB oA oB
        = gebp_res R res rs At Bt rows depth cols alpha (depth : ℤ) (depth : ℤ) oA oB) := by
  constructor
  · intro R res rs A B rows depth cols alpha oA oB
    unfold gebp_res
    rw [show strideOr (-1) depth = (depth : ℤ) from if_pos rfl,
      show strideOr (depth : ℤ) depth = (depth : ℤ) from if_neg (by omega)]
  · intro R res rs Ap Bp At Bt rows depth cols alpha sA sB oA oB hsA hsB hA hB
    have hA2 : strideOr sA depth = sA := if_neg (by intro hEq; rw [hEq] at hsA; omega)
    have hB2 : strideOr sB depth = sB := if_neg (by intro hEq; rw [hEq] at hsB; omega)
    have hd2 : strideOr (depth : ℤ) depth = (depth : ℤ) := if_neg (by omega)
    apply gebp_congr
    · intro i hi k hk
      rw [hA2, hd2]
      exact hA i hi k hk
    · intro g hg k hk c hc
      rw [hB2, hd2]
      exact hB g hg k hk c hc

theorem gebp_padding_independent_witness :
    gebp_res intArith (fun _ => 0) 1 (fun x => x) (fun x => x) 1 1 1 5 (-1) (-1) 0 0
      = gebp_res intArith (fun _ => 0) 1 (fun x => x) (fun x => x) 1 1 1 5
          ((1 : ℕ) : ℤ) ((1 : ℕ) : ℤ) 0 0
    ∧ gebp_res intArith (fun _ => 0) 1 (fun x => x) (fun x => x) 1 1 1 5 2 ((1 : ℕ) : ℤ) 0 0
      = gebp_res intArith (fun _ => 0) 1 (fun x => x) (fun x => x) 1 1 1 5
          ((1 : ℕ) : ℤ) ((1 : ℕ) : ℤ) 0 0 :=
  ⟨(gebp_padding_independent (α := ℤ)).1 intArith (fun _ => 0) 1 (fun x => x) (fun x => x)
      1 1 1 5 0 0,
   (gebp_padding_independent (α := ℤ)).2 intArith (fun _ => 0) 1 (fun x => x) (fun x => x)
      (fun x => x) (fun x => x) 1 1 1 5 2 ((1 : ℕ) : ℤ) 0 0 (by decide) (by decide)
      (by decide) (fun _ _ _ _ _ _ => rfl)⟩

/-- C6: the kernel accumulates and never overwrites: over exact arithmetic
(any commutative ring, modelling values on which the mpfr operations are
exact) two successive calls with identical arguments leave each block entry
at `C_initial + 2·alpha·(A·B)`, with `A·B` the mathematical sum of products
of the packed operand entries, and leave every offset outside the write set
unchanged. -/
theorem gebp_accumulates {α : Type} [CommRing α] (res : ℤ → α) (rs : ℤ)
    (A B : ℤ → α) (rows depth cols : ℕ) (alpha : α) (sA sB oA oB : ℤ) :
    (∀ i j : ℕ, (rows : ℤ) ≤ rs → i < rows → j < cols →
      gebp_res (ringArith α)
          (gebp_res (ringArith α) res rs A B rows depth cols alpha sA sB oA oB)
          rs A B rows depth cols alpha sA sB oA oB (writeIdx rs i j)
        = res (writeIdx rs i j)
            + 2 * alpha * ∑ k ∈ Finset.range depth,
                packedA A (strideOr sA depth) oA i k
                  * packedB B (strideOr sB depth) oB cols k j)
    ∧ (∀ x : ℤ, x ∉ gebp_writesC rows cols rs →
      gebp_res (ringArith α)
          (gebp_res (ringArith α) res rs A B rows depth cols alpha sA sB oA oB)
          rs A B rows depth cols alpha sA sB oA oB x = res x) := by
  constructor
  · intro i j hrs hi hj
    rw [gebp_apply_entry (ringArith α) _ rs A B rows depth cols alpha sA sB oA oB i j
        hrs hi hj,
      gebp_apply_entry (ringArith α) res rs A B rows depth cols alpha sA sB oA oB i j
        hrs hi hj,
      macc_ring]
    simp only [ringArith]
    ring
  · intro x hx
    rw [gebp_apply_not_written (ringArith α) _ rs A B rows depth cols alpha sA sB oA oB x hx,
      gebp_apply_not_written (ringArith α) res rs A B rows depth cols alpha sA sB oA oB x hx]

theorem gebp_accumulates_witness :
    gebp_res (ringArith ℤ)
        (gebp_res (ringArith ℤ) (fun _ => 7) 1 (fun _ => 2) (fun _ => 3) 1 1 1 5 (-1) (-1) 0 0)
        1 (fun _ => 2) (fun _ => 3) 1 1 1 5 (-1) (-1) 0 0 (writeIdx 1 0 0) = 67 := by
  have h := (gebp_accumulates (α := ℤ) (fun _ => 7) 1 (fun _ => 2) (fun _ => 3)
      1 1 1 5 (-1) (-1) 0 0).1 0 0 (by decide) (by decide) (by decide)
  rw [h]
  norm_num [packedA, packedB, Finset.sum_range_succ]
